import Mathlib

/-!
Verification of the length-bucketed batching pipeline of the sentiment-analysis
notebook (`09_sentiment_analysis/sentiment_analysis.ipynb`).

The notebook's own code (`preprocess`, `get_length`, `preprocess_dataset`,
`MeanPoolingLayer.hybrid_forward`) is embedded directly.  The library
components it calls (`nlp.data.ClipSequence`, the vocabulary lookup,
`mp.Pool.map`, `nlp.data.sampler.FixedBucketSampler`,
`nlp.data.batchify.Pad`/`Stack`, `mxnet.SequenceMask`) are not part of the
repository; they are modelled from the specification, as marked in the doc
comments below.

Conventions: token-id sequences are `List ℕ`, labels `ℕ`, raw scores `ℤ`,
floating-point values `ℚ`, and tensors are total functions from index tuples.
-/

/-- Vocabulary: a fixed mapping from token to integer ID together with the
designated unknown-token ID.  Modelled from the spec: the vocabulary is an
externally supplied read-only mapping; unknown tokens map to the unknown-ID. -/
structure Vocab where
  find : String → Option ℕ
  unk : ℕ

/-- Lookup of one token: a known token yields its ID, an unknown token the
designated unknown-ID (`vocab[token]` in the notebook). -/
def Vocab.idx (v : Vocab) (t : String) : ℕ :=
  (v.find t).getD v.unk

/-- Modelled from the spec: `nlp.data.ClipSequence(M)` clips a sequence to a
maximum length `M` by truncating from the end (the first `M` items survive). -/
def ClipSequence (M : ℕ) (l : List α) : List α :=
  l.take M

/-- Embedding of the notebook's `preprocess`: given `(text, score)`, the label
is `int(score > 5)` and the data is `vocab[length_clip(tokenizer(text))]` with
clip length 500.  The linguistic tokenizer is an injected capability. -/
def preprocess (tokenizer : String → List String) (v : Vocab) (x : String × ℤ) :
    List ℕ × ℕ :=
  let label : ℕ := if 5 < x.2 then 1 else 0
  let data : List ℕ := (ClipSequence 500 (tokenizer x.1)).map v.idx
  (data, label)

/-- Embedding of the notebook's `get_length`: `float(len(x[0]))`. -/
def get_length (x : List ℕ × ℕ) : ℚ :=
  (x.1.length : ℚ)

/-- Modelled from the spec: `mp.Pool.map` dispatches the work across workers
that may complete in an arbitrary order (`order` lists the input positions in
completion order); results are keyed by original position and re-sequenced by
that key, so the output is index-aligned with the input. -/
def poolMap [Inhabited α] [Inhabited β] (order : List ℕ) (f : α → β)
    (l : List α) : List β :=
  let results := order.map fun j => (j, f (l.getD j default))
  (List.range l.length).map fun i => (results.lookup i).getD default

/-- Embedding of the notebook's `preprocess_dataset`: one pool map applying
`preprocess` to the raw dataset, then a second pool map applying `get_length`
to the result.  `order1`/`order2` are the completion orders of the two pool
invocations (modelled from the spec). -/
def preprocess_dataset (tokenizer : String → List String) (v : Vocab)
    (order1 order2 : List ℕ) (dataset : List (String × ℤ)) :
    List (List ℕ × ℕ) × List ℚ :=
  let d := poolMap order1 (preprocess tokenizer v) dataset
  (d, poolMap order2 get_length d)

/-- The notebook's `preprocess` with a fallible injected tokenizer (a worker
raising on malformed text); the error is propagated. -/
def preprocessE (tokenizer : String → Except String (List String)) (v : Vocab)
    (x : String × ℤ) : Except String (List ℕ × ℕ) :=
  (tokenizer x.1).map fun toks =>
    ((ClipSequence 500 toks).map v.idx, if 5 < x.2 then 1 else 0)

/-- Modelled from the spec: a failing worker aborts the whole `Pool.map` call;
the error propagates to the caller as a single failure and no list of results
is produced. -/
def poolMapE (f : α → Except String β) : List α → Except String (List β)
  | [] => .ok []
  | x :: xs =>
    match f x, poolMapE f xs with
    | .error e, _ => .error e
    | .ok _, .error e => .error e
    | .ok b, .ok bs => .ok (b :: bs)

/-- The notebook's `preprocess_dataset` with a fallible tokenizer: the whole
call either returns the full `(samples, lengths)` pair or a single error. -/
def preprocess_datasetE (tokenizer : String → Except String (List String))
    (v : Vocab) (dataset : List (String × ℤ)) :
    Except String (List (List ℕ × ℕ) × List ℚ) :=
  (poolMapE (preprocessE tokenizer v) dataset).map fun d => (d, d.map get_length)

/-- Modelled from the spec: the padded width chosen by `batchify.Pad` is the
maximum sequence length in the batch. -/
def padWidth (batch : List (List ℕ × ℕ)) : ℕ :=
  (batch.map fun s => s.1.length).foldr max 0

/-- Modelled from the spec: the collator
`batchify.Tuple(Pad(axis=0, ret_length=True), Stack(dtype=float32))`.
Each sequence is copied into the first `len` positions of its row and the
rest of the row is filled with the designated padding value; the original
lengths are returned in batch order, and the labels are stacked as a flat
vector cast to floating point. -/
def batchify_fn (padVal : ℕ) (batch : List (List ℕ × ℕ)) :
    List (List ℕ) × List ℕ × List ℚ :=
  (batch.map fun s => s.1 ++ List.replicate (padWidth batch - s.1.length) padVal,
   batch.map fun s => s.1.length,
   batch.map fun s => (s.2 : ℚ))

/-- Shape of the padded buffer in the spec's sequence-first orientation
`(L, count)`: padded width paired with the number of rows. -/
def paddedShape (rows : List (List ℕ)) : ℕ × ℕ :=
  ((rows.map List.length).foldr max 0, rows.length)

/-- Modelled from the spec: bucket assignment of `FixedBucketSampler` — a
length goes to the first (smallest) bucket key that is at least the length,
and a length exceeding every key goes to the last bucket. -/
def bucketIndex (keys : List ℕ) (len : ℕ) : ℕ :=
  match keys with
  | [] => 0
  | k :: ks =>
    if len ≤ k then 0
    else
      match ks with
      | [] => 0
      | _ :: _ => bucketIndex ks len + 1

/-- Dataset indices assigned to bucket `b` (in increasing index order, before
any shuffling). -/
def bucketMembers (keys lengths : List ℕ) (b : ℕ) : List ℕ :=
  (List.range lengths.length).filter fun i =>
    bucketIndex keys (lengths.getD i 0) == b

/-- Floor of the `q`-th root of `x` over ℕ: the greatest `n` with `n ^ q ≤ x`. -/
def natRootFloor (q x : ℕ) : ℕ :=
  Nat.findGreatest (fun n => n ^ q ≤ x) x

/-- Modelled from the spec: the per-bucket batch size, approximately
proportional to `(reference_batch_size × reference_key / bucket_key) ^ r`
with the rational exponent `r = rNum / rDen`, floored to a minimum of 1 so it
is never zero. -/
def bucketBatchSize (batchSize refKey rNum rDen k : ℕ) : ℕ :=
  max 1 (natRootFloor rDen ((batchSize * refKey / k) ^ rNum))

/-- Chunks a list into consecutive pieces of size `bs` (the final piece may be
smaller); `fuel` bounds the recursion and is instantiated with the list
length. -/
def chunkFuel (bs : ℕ) : ℕ → List α → List (List α)
  | _, [] => []
  | 0, _ :: _ => []
  | fuel + 1, x :: xs => (x :: xs).take bs :: chunkFuel bs fuel ((x :: xs).drop bs)

/-- Modelled from the spec: slicing a bucket's index list into batches of the
bucket's batch size, keeping the final partial batch. -/
def chunk (bs : ℕ) (l : List α) : List (List α) :=
  chunkFuel bs l.length l

/-- The batches contributed by bucket `b`: the (possibly shuffled) member
indices of the bucket sliced into batches of the bucket's batch size.  The
reference key is the last (largest) bucket key. -/
def bucketBatches (keys : List ℕ) (batchSize rNum rDen : ℕ)
    (shuffleBucket : ℕ → List ℕ → List ℕ) (lengths : List ℕ) (b : ℕ) :
    List (List ℕ) :=
  chunk (bucketBatchSize batchSize (keys.getLastD 0) rNum rDen (keys.getD b 0))
    (shuffleBucket b (bucketMembers keys lengths b))

/-- Modelled from the spec: `FixedBucketSampler` — assign every index to a
bucket, shuffle within each bucket, slice each bucket into batches, then
shuffle the order of the concatenated batches.  `shuffleBucket` and
`shuffleBatches` are the two injected shuffles (permutations when shuffling
is enabled, identity otherwise). -/
def FixedBucketSampler (keys : List ℕ) (batchSize rNum rDen : ℕ)
    (shuffleBucket : ℕ → List ℕ → List ℕ)
    (shuffleBatches : List (List ℕ) → List (List ℕ))
    (lengths : List ℕ) : List (List ℕ) :=
  shuffleBatches
    (((List.range keys.length).map fun b =>
      bucketBatches keys batchSize rNum rDen shuffleBucket lengths b).flatten)

/-- Modelled from the framework's documented `SequenceMask` semantics: entries
at time steps `t < valid i` pass through, all later (padding) time steps are
replaced by zero. -/
def sequenceMask (valid : ℕ → ℕ) (data : ℕ → ℕ → ℚ) : ℕ → ℕ → ℚ :=
  fun t i => if t < valid i then data t i else 0

/-- Embedding of the notebook's `MeanPoolingLayer.hybrid_forward`: mask the
`(T, N)` encoder states with `SequenceMask`, sum over the time axis, and
divide each example's sum by its valid length (one feature channel shown; the
op acts channel-wise). -/
def MeanPoolingLayer.hybrid_forward (T N : ℕ) (data : ℕ → ℕ → ℚ)
    (valid : ℕ → ℕ) : List ℚ :=
  (List.range N).map fun i =>
    ((List.range T).map fun t => sequenceMask valid data t i).sum / (valid i : ℚ)

/-! Helper lemmas. -/

theorem lookup_map_graph (g : ℕ → β) (order : List ℕ) (i : ℕ) :
    (order.map fun j => (j, g j)).lookup i
      = if i ∈ order then some (g i) else none := by
  induction order with
  | nil => simp
  | cons j rest ih =>
    by_cases h : i = j
    · subst h; simp [List.lookup]
    · have hne : (i == j) = false := beq_false_of_ne h
      simp [List.lookup, List.mem_cons, h, ih, hne]

theorem poolMap_eq_map [Inhabited α] [Inhabited β] (order : List ℕ) (f : α → β)
    (l : List α) (h : order.Perm (List.range l.length)) :
    poolMap order f l = l.map f := by
  unfold poolMap
  apply List.ext_getElem (by simp)
  intro i h1 h2
  have hi : i < l.length := by simpa using h2
  have hmem : i ∈ order := h.mem_iff.mpr (List.mem_range.mpr hi)
  simp [lookup_map_graph, hmem, List.getElem?_eq_getElem hi]

theorem poolMapE_error_of_mem (f : α → Except String β) (l : List α) (x : α)
    (e : String) (hx : x ∈ l) (hf : f x = .error e) :
    ∃ e2, poolMapE f l = .error e2 := by
  induction l with
  | nil => cases hx
  | cons y ys ih =>
    cases hfy : f y with
    | error e3 => exact ⟨e3, by simp [poolMapE, hfy]⟩
    | ok b =>
      rcases List.mem_cons.mp hx with hxy | hxs
      · subst hxy; rw [hf] at hfy; cases hfy
      · obtain ⟨e2, h2⟩ := ih hxs
        exact ⟨e2, by simp [poolMapE, hfy, h2]⟩

theorem count_filter_classes (f : ℕ → ℕ) (b : ℕ) (a : ℕ) (l : List ℕ) :
    List.count a (l.filter fun i => f i == b)
      = if f a = b then List.count a l else 0 := by
  by_cases h : f a = b
  · rw [if_pos h]
    exact List.count_filter (by simpa using h)
  · rw [if_neg h]
    refine List.count_eq_zero_of_not_mem fun hmem => ?_
    have := (List.mem_filter.mp hmem).2
    exact h (by simpa using this)

theorem sum_map_range_ite (c v K : ℕ) :
    ((List.range K).map fun b => if c = b then v else 0).sum
      = if c < K then v else 0 := by
  induction K with
  | zero => simp
  | succ K ih =>
    rw [List.range_succ, List.map_append, List.sum_append, ih]
    by_cases h1 : c < K
    · have h2 : ¬ c = K := Nat.ne_of_lt h1
      simp [h1, h2, Nat.lt_succ_of_lt h1]
    · by_cases h2 : c = K
      · simp [h1, h2, Nat.lt_succ_self]
      · have h3 : ¬ c < K + 1 := by omega
        simp [h1, h2, h3]

theorem flatten_filter_classes (f : ℕ → ℕ) (K : ℕ) (l : List ℕ)
    (h : ∀ x ∈ l, f x < K) :
    (((List.range K).map fun b => l.filter fun i => f i == b).flatten).Perm l := by
  rw [List.perm_iff_count]
  intro a
  rw [List.count_flatten, List.map_map]
  have hmap : ((List.range K).map fun b =>
      List.count a (l.filter fun i => f i == b))
      = (List.range K).map fun b => if f a = b then List.count a l else 0 :=
    List.map_congr_left fun b _ => count_filter_classes f b a l
  rw [show (List.count a ∘ fun b => l.filter fun i => f i == b)
      = fun b => List.count a (l.filter fun i => f i == b) from rfl, hmap,
    sum_map_range_ite]
  by_cases ha : a ∈ l
  · rw [if_pos (h a ha)]
  · rw [List.count_eq_zero_of_not_mem ha]
    simp

theorem flatten_map_perm_congr (g h : ℕ → List ℕ) (r : List ℕ)
    (hp : ∀ b ∈ r, (g b).Perm (h b)) :
    ((r.map g).flatten).Perm ((r.map h).flatten) := by
  induction r with
  | nil => simp
  | cons b rest ih =>
    simp only [List.map_cons, List.flatten_cons]
    exact (hp b (List.mem_cons_self b rest)).append
      (ih fun c hc => hp c (List.mem_cons_of_mem b hc))

theorem bucketIndex_nil (len : ℕ) : bucketIndex [] len = 0 := rfl

theorem bucketIndex_singleton (k len : ℕ) : bucketIndex [k] len = 0 := by
  unfold bucketIndex
  exact ite_self 0

theorem bucketIndex_cons2 (k k2 : ℕ) (ks2 : List ℕ) (len : ℕ) :
    bucketIndex (k :: k2 :: ks2) len
      = if len ≤ k then 0 else bucketIndex (k2 :: ks2) len + 1 := rfl

theorem bucketIndex_lt (keys : List ℕ) (len : ℕ) (h : keys ≠ []) :
    bucketIndex keys len < keys.length := by
  induction keys with
  | nil => cases h rfl
  | cons k ks ih =>
    cases ks with
    | nil => simp [bucketIndex_singleton]
    | cons k2 ks2 =>
      rw [bucketIndex_cons2]
      by_cases hk : len ≤ k
      · simp [hk]
      · rw [if_neg hk]
        have := ih (by simp)
        simp only [List.length_cons] at this ⊢
        omega

theorem bucketIndex_le_key (keys : List ℕ) (len : ℕ)
    (h : bucketIndex keys len + 1 < keys.length) :
    len ≤ keys.getD (bucketIndex keys len) 0 := by
  induction keys with
  | nil => simp [bucketIndex_nil] at h
  | cons k ks ih =>
    cases ks with
    | nil => rw [bucketIndex_singleton] at h; simp at h
    | cons k2 ks2 =>
      by_cases hk : len ≤ k
      · rw [bucketIndex_cons2, if_pos hk]
        simpa using hk
      · rw [bucketIndex_cons2, if_neg hk] at h ⊢
        have h2 : bucketIndex (k2 :: ks2) len + 1 < (k2 :: ks2).length := by
          simp only [List.length_cons] at h ⊢
          omega
        simpa [List.getD_cons_succ] using ih h2

theorem bucketIndex_smallest (keys : List ℕ) (len j : ℕ)
    (hj : j < bucketIndex keys len) : keys.getD j 0 < len := by
  induction keys generalizing j with
  | nil => rw [bucketIndex_nil] at hj; omega
  | cons k ks ih =>
    cases ks with
    | nil => rw [bucketIndex_singleton] at hj; omega
    | cons k2 ks2 =>
      by_cases hk : len ≤ k
      · rw [bucketIndex_cons2, if_pos hk] at hj; omega
      · rw [bucketIndex_cons2, if_neg hk] at hj
        cases j with
        | zero => simpa using Nat.lt_of_not_le hk
        | succ j2 =>
          simpa [List.getD_cons_succ] using ih j2 (by omega)

theorem bucketIndex_overflow (keys : List ℕ) (len : ℕ) (h : keys ≠ [])
    (hall : ∀ k ∈ keys, k < len) :
    bucketIndex keys len = keys.length - 1 := by
  induction keys with
  | nil => cases h rfl
  | cons k ks ih =>
    cases ks with
    | nil => simp [bucketIndex_singleton]
    | cons k2 ks2 =>
      have hk : ¬ len ≤ k := Nat.not_le_of_lt (hall k (List.mem_cons_self _ _))
      rw [bucketIndex_cons2, if_neg hk,
        ih (by simp) fun x hx => hall x (List.mem_cons_of_mem k hx)]
      simp only [List.length_cons]
      omega

theorem chunkFuel_flatten (bs fuel : ℕ) (l : List α) (hbs : 1 ≤ bs)
    (hfuel : l.length ≤ fuel) : (chunkFuel bs fuel l).flatten = l := by
  induction fuel generalizing l with
  | zero =>
    have : l = [] := List.eq_nil_of_length_eq_zero (Nat.le_zero.mp hfuel)
    subst this; rfl
  | succ fuel ih =>
    cases l with
    | nil => rfl
    | cons x xs =>
      simp only [chunkFuel, List.flatten_cons]
      rw [ih (l := (x :: xs).drop bs)
        (by simp only [List.length_drop, List.length_cons] at hfuel ⊢; omega)]
      exact List.take_append_drop bs (x :: xs)

theorem chunk_flatten (bs : ℕ) (l : List α) (hbs : 1 ≤ bs) :
    (chunk bs l).flatten = l :=
  chunkFuel_flatten bs l.length l hbs (Nat.le_refl _)

theorem mem_of_mem_chunk (bs : ℕ) (l : List α) (batch : List α) (a : α)
    (hbs : 1 ≤ bs) (hbatch : batch ∈ chunk bs l) (ha : a ∈ batch) : a ∈ l := by
  rw [← chunk_flatten bs l hbs]
  exact List.mem_flatten.mpr ⟨batch, hbatch, ha⟩

theorem le_foldr_max (a : ℕ) (l : List ℕ) (ha : a ∈ l) : a ≤ l.foldr max 0 := by
  induction l with
  | nil => cases ha
  | cons x xs ih =>
    rcases List.mem_cons.mp ha with h | h
    · subst h; exact Nat.le_max_left a (xs.foldr max 0)
    · exact Nat.le_trans (ih h) (Nat.le_max_right x (xs.foldr max 0))

theorem sum_map_range_mask (T v : ℕ) (f : ℕ → ℚ) (h : v ≤ T) :
    ((List.range T).map fun t => if t < v then f t else 0).sum
      = ((List.range v).map f).sum := by
  induction T with
  | zero =>
    have : v = 0 := Nat.le_zero.mp h
    subst this; rfl
  | succ T ih =>
    by_cases hv : v ≤ T
    · rw [List.range_succ, List.map_append, List.sum_append, ih hv]
      have : ¬ T < v := Nat.not_lt_of_le hv
      simp [this]
    · have hveq : v = T + 1 := by omega
      subst hveq
      refine congrArg List.sum (List.map_congr_left fun t ht => ?_)
      exact if_pos (List.mem_range.mp ht)

theorem natRootFloor_mono (q x y : ℕ) (h : x ≤ y) :
    natRootFloor q x ≤ natRootFloor q y :=
  Nat.findGreatest_mono (fun n hn => Nat.le_trans hn h) h

theorem poolMap_length [Inhabited α] [Inhabited β] (order : List ℕ)
    (f : α → β) (l : List α) : (poolMap order f l).length = l.length := by
  simp [poolMap]

/-! Claim theorems. -/

/-- C2: for every `(text, score)` with the score an integer in `[0, 10]`,
`preprocess` returns the token sequence clipped to its first 500 tokens and
mapped through the vocabulary (unknown tokens to the unknown-ID), so the
result has length at most 500, and the label is `1` iff `score > 5`, hence
lies in `{0, 1}`. -/
theorem preprocess_clip_label (tok : String → List String) (v : Vocab)
    (text : String) (score : ℤ) (hsc : 0 ≤ score ∧ score ≤ 10) :
    (preprocess tok v (text, score)).1.length ≤ 500 ∧
    (preprocess tok v (text, score)).1 = ((tok text).take 500).map v.idx ∧
    (preprocess tok v (text, score)).2 = (if 5 < score then 1 else 0) ∧
    ((preprocess tok v (text, score)).2 = 0 ∨ (preprocess tok v (text, score)).2 = 1) ∧
    (∀ t, v.find t = none → v.idx t = v.unk) := by
  refine ⟨?_, rfl, rfl, ?_, ?_⟩
  · have h : (preprocess tok v (text, score)).1 = ((tok text).take 500).map v.idx := rfl
    rw [h, List.length_map, List.length_take]
    exact Nat.min_le_left _ _
  · by_cases h5 : 5 < score
    · right
      show (if 5 < score then 1 else 0) = 1
      rw [if_pos h5]
    · left
      show (if 5 < score then 1 else 0) = 0
      rw [if_neg h5]
  · intro t ht
    simp [Vocab.idx, ht]

/-- Witness for C2 at the concrete input `("good", 8)` with a one-token
tokenizer and an all-unknown vocabulary. -/
theorem preprocess_clip_label_witness :
    (preprocess (fun s => [s]) ⟨fun _ => none, 7⟩ ("good", 8)).1.length ≤ 500 ∧
    (preprocess (fun s => [s]) ⟨fun _ => none, 7⟩ ("good", 8)).1
      = (((fun s => [s]) "good").take 500).map (Vocab.idx ⟨fun _ => none, 7⟩) ∧
    (preprocess (fun s => [s]) ⟨fun _ => none, 7⟩ ("good", 8)).2
      = (if (5 : ℤ) < 8 then 1 else 0) ∧
    ((preprocess (fun s => [s]) ⟨fun _ => none, 7⟩ ("good", 8)).2 = 0 ∨
      (preprocess (fun s => [s]) ⟨fun _ => none, 7⟩ ("good", 8)).2 = 1) ∧
    (∀ t, Vocab.find ⟨fun _ => none, 7⟩ t = none
      → Vocab.idx ⟨fun _ => none, 7⟩ t = Vocab.unk ⟨fun _ => none, 7⟩) :=
  preprocess_clip_label (fun s => [s]) ⟨fun _ => none, 7⟩ "good" 8 (by decide)

/-- C4: collating a batch holding a single sequence of length `L` yields that
sequence unchanged (no padding added), a valid-length vector `[L]`, the
stacked label, and a padded buffer of shape exactly `(L, 1)`. -/
theorem batchify_singleton_roundtrip (padVal : ℕ) (s : List ℕ) (y : ℕ) :
    batchify_fn padVal [(s, y)] = ([s], [s.length], [(y : ℚ)]) ∧
    paddedShape (batchify_fn padVal [(s, y)]).1 = (s.length, 1) := by
  have h1 : batchify_fn padVal [(s, y)] = ([s], [s.length], [(y : ℚ)]) := by
    simp [batchify_fn, padWidth]
  refine ⟨h1, ?_⟩
  rw [h1]
  simp [paddedShape]

/-- C5: `preprocess_dataset` returns exactly one output per input and output
`i` equals `preprocess` of input `i`, for every completion order of the
worker pools (the pool re-sequences results by original position). -/
theorem preprocess_dataset_order_preserving (tok : String → List String)
    (v : Vocab) (order1 order2 : List ℕ) (ds : List (String × ℤ))
    (h1 : order1.Perm (List.range ds.length))
    (h2 : order2.Perm (List.range ds.length)) :
    (preprocess_dataset tok v order1 order2 ds).1 = ds.map (preprocess tok v) ∧
    (preprocess_dataset tok v order1 order2 ds).1.length = ds.length ∧
    (preprocess_dataset tok v order1 order2 ds).2.length = ds.length ∧
    ∀ i, i < ds.length →
      (preprocess_dataset tok v order1 order2 ds).1.getD i default
        = preprocess tok v (ds.getD i default) := by
  have hfst : (preprocess_dataset tok v order1 order2 ds).1
      = ds.map (preprocess tok v) := poolMap_eq_map order1 _ ds h1
  refine ⟨hfst, by rw [hfst]; simp, ?_, ?_⟩
  · show (poolMap order2 get_length
      (poolMap order1 (preprocess tok v) ds)).length = ds.length
    rw [poolMap_length, poolMap_length]
  · intro i hi
    rw [hfst, List.getD_eq_getElem _ _ (by simpa using hi),
      List.getD_eq_getElem _ _ hi, List.getElem_map]

/-- Witness for C5: a two-element dataset with the first pool completing in
reversed order. -/
theorem preprocess_dataset_order_preserving_witness :
    (preprocess_dataset (fun s => [s]) ⟨fun _ => none, 7⟩ [1, 0] [0, 1]
        [("a", 8), ("b", 2)]).1
      = [("a", 8), ("b", 2)].map (preprocess (fun s => [s]) ⟨fun _ => none, 7⟩) ∧
    (preprocess_dataset (fun s => [s]) ⟨fun _ => none, 7⟩ [1, 0] [0, 1]
        [("a", 8), ("b", 2)]).1.length = [("a", 8), ("b", 2)].length ∧
    (preprocess_dataset (fun s => [s]) ⟨fun _ => none, 7⟩ [1, 0] [0, 1]
        [("a", 8), ("b", 2)]).2.length = [("a", 8), ("b", 2)].length ∧
    ∀ i, i < [("a", 8), ("b", 2)].length →
      (preprocess_dataset (fun s => [s]) ⟨fun _ => none, 7⟩ [1, 0] [0, 1]
          [("a", 8), ("b", 2)]).1.getD i default
        = preprocess (fun s => [s]) ⟨fun _ => none, 7⟩
            ([("a", 8), ("b", 2)].getD i default) :=
  preprocess_dataset_order_preserving (fun s => [s]) ⟨fun _ => none, 7⟩
    [1, 0] [0, 1] [("a", 8), ("b", 2)] (by decide) (by decide)

/-- C10: each entry of the lengths output equals the float length of the
already clipped and indexed sample at the same position, hence is a
whole-valued rational in `[0, 500]`. -/
theorem get_length_aligned (tok : String → List String) (v : Vocab)
    (order1 order2 : List ℕ) (ds : List (String × ℤ)) (i : ℕ)
    (h1 : order1.Perm (List.range ds.length))
    (h2 : order2.Perm (List.range ds.length)) (hi : i < ds.length) :
    (preprocess_dataset tok v order1 order2 ds).2.getD i 0
      = (((preprocess_dataset tok v order1 order2 ds).1.getD i default).1.length : ℚ) ∧
    ∃ n : ℕ, n ≤ 500 ∧
      (preprocess_dataset tok v order1 order2 ds).2.getD i 0 = (n : ℚ) := by
  have hd0 : poolMap order1 (preprocess tok v) ds = ds.map (preprocess tok v) :=
    poolMap_eq_map order1 _ ds h1
  have hfst : (preprocess_dataset tok v order1 order2 ds).1
      = ds.map (preprocess tok v) := hd0
  have hsnd : (preprocess_dataset tok v order1 order2 ds).2
      = (ds.map (preprocess tok v)).map get_length := by
    show poolMap order2 get_length (poolMap order1 (preprocess tok v) ds) = _
    rw [hd0]
    exact poolMap_eq_map order2 _ _ (by simpa using h2)
  have hi1 : i < ((ds.map (preprocess tok v)).map get_length).length := by
    simpa using hi
  have hi2 : i < (ds.map (preprocess tok v)).length := by simpa using hi
  have hval : (preprocess_dataset tok v order1 order2 ds).2.getD i 0
      = (((ds.map (preprocess tok v)).getD i default).1.length : ℚ) := by
    rw [hsnd, List.getD_eq_getElem _ _ hi1, List.getD_eq_getElem _ _ hi2,
      List.getElem_map]
    rfl
  constructor
  · rw [hval, hfst]
  · refine ⟨((ds.map (preprocess tok v)).getD i default).1.length, ?_, hval⟩
    rw [List.getD_eq_getElem _ _ hi2, List.getElem_map]
    have h : (preprocess tok v (ds[i])).1
        = ((tok (ds[i]).1).take 500).map v.idx := rfl
    rw [h, List.length_map, List.length_take]
    exact Nat.min_le_left _ _

/-- Witness for C10 at index 0 of a two-element dataset. -/
theorem get_length_aligned_witness :
    (preprocess_dataset (fun s => [s]) ⟨fun _ => none, 7⟩ [1, 0] [0, 1]
        [("a", 8), ("b", 2)]).2.getD 0 0
      = (((preprocess_dataset (fun s => [s]) ⟨fun _ => none, 7⟩ [1, 0] [0, 1]
          [("a", 8), ("b", 2)]).1.getD 0 default).1.length : ℚ) ∧
    ∃ n : ℕ, n ≤ 500 ∧
      (preprocess_dataset (fun s => [s]) ⟨fun _ => none, 7⟩ [1, 0] [0, 1]
          [("a", 8), ("b", 2)]).2.getD 0 0 = (n : ℚ) :=
  get_length_aligned (fun s => [s]) ⟨fun _ => none, 7⟩ [1, 0] [0, 1]
    [("a", 8), ("b", 2)] 0 (by decide) (by decide) (by decide)

/-- C9: if a worker fails while preprocessing any single sample, the whole
`preprocess_dataset` call aborts with an error propagated to the caller, and
no (partial) dataset is returned. -/
theorem preprocess_datasetE_aborts (tokE : String → Except String (List String))
    (v : Vocab) (ds : List (String × ℤ)) (x : String × ℤ) (e : String)
    (hx : x ∈ ds) (hfail : tokE x.1 = .error e) :
    (∃ e2, preprocess_datasetE tokE v ds = .error e2) ∧
    ∀ out, preprocess_datasetE tokE v ds ≠ .ok out := by
  have hpe : preprocessE tokE v x = .error e := by
    simp [preprocessE, hfail, Except.map]
  obtain ⟨e2, h2⟩ := poolMapE_error_of_mem (preprocessE tokE v) ds x e hx hpe
  have hmain : preprocess_datasetE tokE v ds = .error e2 := by
    simp [preprocess_datasetE, h2, Except.map]
  refine ⟨⟨e2, hmain⟩, ?_⟩
  intro out hout
  rw [hmain] at hout
  simp at hout

/-- Witness for C9: a tokenizer failing on the text of the only sample. -/
theorem preprocess_datasetE_aborts_witness :
    (∃ e2, preprocess_datasetE
        (fun s => if s = "bad" then .error "boom" else .ok [s])
        ⟨fun _ => none, 7⟩ [("bad", 3)] = .error e2) ∧
    ∀ out, preprocess_datasetE
        (fun s => if s = "bad" then .error "boom" else .ok [s])
        ⟨fun _ => none, 7⟩ [("bad", 3)] ≠ .ok out :=
  preprocess_datasetE_aborts
    (fun s => if s = "bad" then .error "boom" else .ok [s])
    ⟨fun _ => none, 7⟩ [("bad", 3)] ("bad", 3) "boom" (by simp) (by simp)

/-- C1: one full pass of the bucketing sampler over the training lengths
yields index batches whose multiset union is exactly the index set
`{0, ..., N-1}`: every dataset index appears in exactly one batch, with no
duplicates and no omissions, for any within-bucket and batch-order shuffles
that are permutations. -/
theorem fixedBucketSampler_partition (keys lengths : List ℕ)
    (batchSize rNum rDen : ℕ)
    (shuffleBucket : ℕ → List ℕ → List ℕ)
    (shuffleBatches : List (List ℕ) → List (List ℕ))
    (hkeys : keys ≠ [])
    (hsb : ∀ b l, (shuffleBucket b l).Perm l)
    (hsB : ∀ L, (shuffleBatches L).Perm L) :
    ((FixedBucketSampler keys batchSize rNum rDen shuffleBucket shuffleBatches
      lengths).flatten).Perm (List.range lengths.length) := by
  unfold FixedBucketSampler
  set inner := ((List.range keys.length).map fun b =>
    bucketBatches keys batchSize rNum rDen shuffleBucket lengths b) with hinner
  have step2 : inner.flatten.flatten
      = ((List.range keys.length).map fun b =>
          shuffleBucket b (bucketMembers keys lengths b)).flatten := by
    rw [hinner, List.flatten_flatten, List.map_map]
    refine congrArg List.flatten (List.map_congr_left fun b _ => ?_)
    exact chunk_flatten _ _ (le_max_left 1 _)
  have step3 : ((((List.range keys.length).map fun b =>
      shuffleBucket b (bucketMembers keys lengths b))).flatten).Perm
      (((List.range keys.length).map fun b =>
        bucketMembers keys lengths b).flatten) :=
    flatten_map_perm_congr _ _ _ fun b _ => hsb b _
  have step4 : ((((List.range keys.length).map fun b =>
      bucketMembers keys lengths b)).flatten).Perm
      (List.range lengths.length) := by
    unfold bucketMembers
    exact flatten_filter_classes (fun i => bucketIndex keys (lengths.getD i 0))
      keys.length (List.range lengths.length)
      fun x _ => bucketIndex_lt keys _ hkeys
  have h5 : (inner.flatten.flatten).Perm (List.range lengths.length) := by
    rw [step2]
    exact step3.trans step4
  exact ((hsB inner.flatten).flatten).trans h5

/-- Witness for C1: two bucket keys, four lengths, a reversing within-bucket
shuffle and the identity batch-order shuffle. -/
theorem fixedBucketSampler_partition_witness :
    ((FixedBucketSampler [2, 5] 16 1 5 (fun _ l => l.reverse) id
      [1, 3, 6, 2]).flatten).Perm (List.range 4) :=
  fixedBucketSampler_partition [2, 5] [1, 3, 6, 2] 16 1 5
    (fun _ l => l.reverse) id (by decide)
    (fun _ l => List.reverse_perm l) (fun L => List.Perm.refl L)

/-- C3: with reference batch size 16 and ratio 0.2 (= 1/5), the per-bucket
batch size follows the spec's approximate-proportionality formula floored to
a minimum of 1 — it is never computed as zero — and is antitone in the bucket
key, so buckets holding longer sequences receive (weakly) smaller batches. -/
theorem bucketBatchSize_pos_antitone (refKey k1 k2 : ℕ)
    (hk : 0 < k1) (hkk : k1 ≤ k2) :
    1 ≤ bucketBatchSize 16 refKey 1 5 k1 ∧
    bucketBatchSize 16 refKey 1 5 k2 ≤ bucketBatchSize 16 refKey 1 5 k1 := by
  constructor
  · exact le_max_left 1 _
  · unfold bucketBatchSize
    have hdiv : 16 * refKey / k2 ≤ 16 * refKey / k1 :=
      Nat.div_le_div_left hkk hk
    have hpow : (16 * refKey / k2) ^ 1 ≤ (16 * refKey / k1) ^ 1 := by
      simpa using hdiv
    exact max_le_max (Nat.le_refl 1) (natRootFloor_mono 5 _ _ hpow)

/-- Witness for C3 with the notebook's reference key 500 and the smallest and
largest observed bucket keys. -/
theorem bucketBatchSize_pos_antitone_witness :
    1 ≤ bucketBatchSize 16 500 1 5 59 ∧
    bucketBatchSize 16 500 1 5 500 ≤ bucketBatchSize 16 500 1 5 59 :=
  bucketBatchSize_pos_antitone 500 59 500 (by decide) (by decide)

/-- C7: every sample in a batch coming from a non-final bucket has length at
most that bucket's key; moreover every length is assigned to the smallest
bucket key that is at least the length, and lengths exceeding the largest key
go to the last bucket. -/
theorem bucket_membership_bound (keys lengths : List ℕ)
    (batchSize rNum rDen b i : ℕ) (batch : List ℕ)
    (shuffleBucket : ℕ → List ℕ → List ℕ)
    (hsb : ∀ b2 l, (shuffleBucket b2 l).Perm l)
    (hb : b + 1 < keys.length)
    (hbatch : batch ∈ bucketBatches keys batchSize rNum rDen shuffleBucket
      lengths b)
    (hi : i ∈ batch) :
    lengths.getD i 0 ≤ keys.getD b 0 ∧
    (∀ len j, j < bucketIndex keys len → keys.getD j 0 < len) ∧
    (∀ len, keys ≠ [] → (∀ k ∈ keys, k < len) →
      bucketIndex keys len = keys.length - 1) := by
  refine ⟨?_, fun len j hj => bucketIndex_smallest keys len j hj,
    fun len h hall => bucketIndex_overflow keys len h hall⟩
  have hmem : i ∈ shuffleBucket b (bucketMembers keys lengths b) :=
    mem_of_mem_chunk _ _ batch i (le_max_left 1 _) hbatch hi
  have hmem2 : i ∈ bucketMembers keys lengths b := (hsb b _).mem_iff.mp hmem
  have hbi : bucketIndex keys (lengths.getD i 0) = b := by
    simpa using (List.mem_filter.mp hmem2).2
  have hlt : bucketIndex keys (lengths.getD i 0) + 1 < keys.length := by
    rw [hbi]
    exact hb
  have hle := bucketIndex_le_key keys (lengths.getD i 0) hlt
  rwa [hbi] at hle

/-- Witness for C7: three keys, three lengths, the batch of the first bucket
and its only member index. -/
theorem bucket_membership_bound_witness :
    [1, 6, 3].getD 0 0 ≤ [2, 5, 9].getD 0 0 ∧
    (∀ len j, j < bucketIndex [2, 5, 9] len → [2, 5, 9].getD j 0 < len) ∧
    (∀ len, [2, 5, 9] ≠ ([] : List ℕ) → (∀ k ∈ [2, 5, 9], k < len) →
      bucketIndex [2, 5, 9] len = [2, 5, 9].length - 1) :=
  bucket_membership_bound [2, 5, 9] [1, 6, 3] 16 1 5 0 0 [0]
    (fun _ l => l) (fun _ l => List.Perm.refl l) (by decide) (by decide)
    (by decide)

/-- C6: in every collated batch, each valid length is bounded by the padded
width, the first valid_length positions of each row exactly equal the
original sequence, the remaining positions hold the padding value, every row
has the padded width, and the labels are stacked as a flat rational vector in
batch order. -/
theorem batchify_padding_spec (padVal : ℕ) (batch : List (List ℕ × ℕ)) (i : ℕ)
    (hi : i < batch.length) :
    (batchify_fn padVal batch).2.1.getD i 0 ≤ padWidth batch ∧
    ((batchify_fn padVal batch).1.getD i []).take
        ((batchify_fn padVal batch).2.1.getD i 0) = (batch.getD i default).1 ∧
    ((batchify_fn padVal batch).1.getD i []).drop
        ((batchify_fn padVal batch).2.1.getD i 0)
      = List.replicate (padWidth batch - (batch.getD i default).1.length) padVal ∧
    ((batchify_fn padVal batch).1.getD i []).length = padWidth batch ∧
    (batchify_fn padVal batch).2.2 = (batch.map fun s => (s.2 : ℚ)) := by
  have hb1 : i < (batchify_fn padVal batch).1.length := by
    simp [batchify_fn, hi]
  have hb2 : i < (batchify_fn padVal batch).2.1.length := by
    simp [batchify_fn, hi]
  have e1 : (batchify_fn padVal batch).1.getD i []
      = (batch.getD i default).1
        ++ List.replicate (padWidth batch - (batch.getD i default).1.length)
          padVal := by
    rw [List.getD_eq_getElem _ _ hb1, List.getD_eq_getElem _ _ hi]
    simp [batchify_fn]
  have e2 : (batchify_fn padVal batch).2.1.getD i 0
      = (batch.getD i default).1.length := by
    rw [List.getD_eq_getElem _ _ hb2, List.getD_eq_getElem _ _ hi]
    simp [batchify_fn]
  have hle : (batch.getD i default).1.length ≤ padWidth batch := by
    apply le_foldr_max
    rw [List.getD_eq_getElem _ _ hi]
    exact List.mem_map.mpr ⟨batch[i], List.getElem_mem hi, rfl⟩
  refine ⟨by rw [e2]; exact hle, ?_, ?_, ?_, rfl⟩
  · rw [e1, e2]
    exact List.take_left _ _
  · rw [e1, e2]
    exact List.drop_left _ _
  · rw [e1, List.length_append, List.length_replicate]
    omega

/-- Witness for C6: a two-sample batch with lengths 2 and 1, checked at the
first row. -/
theorem batchify_padding_spec_witness :
    (batchify_fn 0 [([1, 2], 1), ([3], 0)]).2.1.getD 0 0
      ≤ padWidth [([1, 2], 1), ([3], 0)] ∧
    ((batchify_fn 0 [([1, 2], 1), ([3], 0)]).1.getD 0 []).take
        ((batchify_fn 0 [([1, 2], 1), ([3], 0)]).2.1.getD 0 0)
      = ([([1, 2], 1), ([3], 0)].getD 0 default).1 ∧
    ((batchify_fn 0 [([1, 2], 1), ([3], 0)]).1.getD 0 []).drop
        ((batchify_fn 0 [([1, 2], 1), ([3], 0)]).2.1.getD 0 0)
      = List.replicate (padWidth [([1, 2], 1), ([3], 0)]
          - ([([1, 2], 1), ([3], 0)].getD 0 default).1.length) 0 ∧
    ((batchify_fn 0 [([1, 2], 1), ([3], 0)]).1.getD 0 []).length
      = padWidth [([1, 2], 1), ([3], 0)] ∧
    (batchify_fn 0 [([1, 2], 1), ([3], 0)]).2.2
      = ([([1, 2], 1), ([3], 0)].map fun s => (s.2 : ℚ)) :=
  batchify_padding_spec 0 [([1, 2], 1), ([3], 0)] 0 (by decide)

/-- C8: mean pooling is independent of padding — two collated batches agreeing
on the valid-length vector and on the first valid_length[i] encoder values of
every example produce identical outputs, and each output equals the sum of
the first valid_length[i] encoder values divided by valid_length[i]. -/
theorem meanPooling_padding_independent (T1 T2 N : ℕ) (d1 d2 : ℕ → ℕ → ℚ)
    (valid : ℕ → ℕ)
    (hT1 : ∀ i, i < N → valid i ≤ T1) (hT2 : ∀ i, i < N → valid i ≤ T2)
    (agree : ∀ i, i < N → ∀ t, t < valid i → d1 t i = d2 t i) :
    MeanPoolingLayer.hybrid_forward T1 N d1 valid
      = MeanPoolingLayer.hybrid_forward T2 N d2 valid ∧
    ∀ i, i < N → (MeanPoolingLayer.hybrid_forward T1 N d1 valid).getD i 0
      = (((List.range (valid i)).map fun t => d1 t i).sum / (valid i : ℚ)) := by
  have key : ∀ (T : ℕ) (d : ℕ → ℕ → ℚ) (i : ℕ), valid i ≤ T →
      ((List.range T).map fun t => sequenceMask valid d t i).sum
        = ((List.range (valid i)).map fun t => d t i).sum := by
    intro T d i hT
    have hmask : (fun t => sequenceMask valid d t i)
        = fun t => if t < valid i then d t i else 0 := rfl
    rw [hmask]
    exact sum_map_range_mask T (valid i) (fun t => d t i) hT
  constructor
  · unfold MeanPoolingLayer.hybrid_forward
    refine List.map_congr_left fun i hmem => ?_
    have hiN : i < N := List.mem_range.mp hmem
    rw [key T1 d1 i (hT1 i hiN), key T2 d2 i (hT2 i hiN)]
    refine congrArg (fun q => q / ((valid i : ℕ) : ℚ)) ?_
    exact congrArg List.sum (List.map_congr_left fun t ht =>
      agree i hiN t (List.mem_range.mp ht))
  · intro i hiN
    unfold MeanPoolingLayer.hybrid_forward
    have hiN2 : i < ((List.range N).map fun i =>
        (((List.range T1).map fun t => sequenceMask valid d1 t i).sum
          / (valid i : ℚ))).length := by
      simpa using hiN
    rw [List.getD_eq_getElem _ _ hiN2]
    simp only [List.getElem_map, List.getElem_range]
    rw [key T1 d1 i (hT1 i hiN)]

/-- Witness for C8: one example, valid length 1, with the second batch
differing only in the padded time steps. -/
theorem meanPooling_padding_independent_witness :
    MeanPoolingLayer.hybrid_forward 2 1 (fun _ _ => 1) (fun _ => 1)
      = MeanPoolingLayer.hybrid_forward 3 1
          (fun t _ => if t < 1 then 1 else 5) (fun _ => 1) ∧
    ∀ i, i < 1 →
      (MeanPoolingLayer.hybrid_forward 2 1 (fun _ _ => 1) (fun _ => 1)).getD i 0
        = (((List.range ((fun _ : ℕ => 1) i)).map
            fun t => (fun _ _ => (1 : ℚ)) t i).sum / (((fun _ : ℕ => 1) i : ℕ) : ℚ)) :=
  meanPooling_padding_independent 2 3 1 (fun _ _ => 1)
    (fun t _ => if t < 1 then 1 else 5) (fun _ => 1)
    (by decide) (by decide) (by decide)
